import Mathlib

/-!
Shallow embedding of `src/project/task_5/hash.py` (class `HashTable`):
an open-addressing hash table with double hashing, automatic growth at
load factor 0.75, and deletion without tombstones.

Modelling choices, all taken from the source:
* A Python key is modelled as a pair `(identity, hash)` : two keys are
  equal iff the pairs are equal, and `hash(key)` is the second
  component.  A small non-negative Python `int` `n` is `(n, n)` since
  CPython hashes such ints to themselves.
* A Python value is `Option Nat`, where `none` models Python's `None`
  (the table code uses `None` both as the empty-slot marker and as the
  not-found result of `_search`, so `None` values must be distinguished
  from present ones in the model exactly as in the source).
* A slot of the backing list is `Option (Key × Val)` : `none` is an
  empty slot, `some (k, v)` an occupied one (`manager.list([key, value])`).
* `count` is an `Int` (the shared integer counter `_count.value`).
* Python exceptions are modelled with `Except PyErr`:
  `KeyError` from `__getitem__`/`__delitem__`, `ZeroDivisionError` from
  `_hash2` when `size - 1 = 0` (and from `_hash1` when `size = 0`), and
  the `RuntimeError("Insertion failed even after rehash")` of
  `__setitem__`.
* The load-factor test `self._count.value >= self._size * 0.75` is
  modelled as `4 * count ≥ 3 * size`, which is exactly the comparison
  CPython performs for the sizes reachable here (`size * 0.75` is exact
  in binary floating point).
-/

namespace HashTablePy

/-- A Python key: `(identity, hash)`.  Distinct keys may share a hash. -/
abbrev Key := Nat × Nat

/-- `hash(key)` of the source: the second component. -/
def keyHash (k : Key) : Nat := k.2

/-- A small non-negative Python `int` used as a key: CPython's `hash`
is the identity on such ints. -/
def intKey (n : Nat) : Key := (n, n)

/-- A Python value; `none` models Python's `None`. -/
abbrev Val := Option Nat

/-- One slot of the backing list `_table`: empty (`None`) or an
occupied pair. -/
abbrev Slot := Option (Key × Val)

/-- The Python exceptions the table can raise. -/
inductive PyErr where
  | keyError (k : Key)
  | zeroDiv
  | runtimeError
deriving DecidableEq, Repr

/-- State of a `HashTable`: `_size`, `_table` (length `_size`), and the
counter `_count.value`. -/
structure HashTable where
  size : Nat
  table : List Slot
  count : Int
deriving DecidableEq, Repr

namespace HashTable

/-- `HashTable.__init__(initial_size)`: a table of `initial_size` empty
slots and a zero counter.  The constructor performs no validation. -/
def mk' (initial_size : Nat := 13) : HashTable :=
  { size := initial_size
    table := List.replicate initial_size none
    count := 0 }

/-- `_hash1`: `hash(key) % self._size`. -/
def hash1 (sz : Nat) (k : Key) : Nat := keyHash k % sz

/-- `_hash2`: `1 + (hash(key) % (self._size - 1))`. -/
def hash2 (sz : Nat) (k : Key) : Nat := 1 + keyHash k % (sz - 1)

/-- `_probe_sequence`: the indices `(h1 + i * h2) % size` for
`i = 0 .. size-1`.  For `size = 0` the `%` in `_hash1` raises
`ZeroDivisionError`; for `size = 1` the `%` in `_hash2` does (the
generator body runs, and raises, on the first `next()` performed by the
`for` loop of every caller). -/
def probeSequence (sz : Nat) (k : Key) : Except PyErr (List Nat) :=
  if sz ≤ 1 then .error .zeroDiv
  else .ok ((List.range sz).map fun i => (hash1 sz k + i * hash2 sz k) % sz)

/-- The loop body of `_search`: walk the probe indices, skip empty and
non-matching slots, return the stored value at the first slot whose key
matches (`None` is returned both when the walk is exhausted and when
the stored value is itself `None`, exactly as in the source). -/
def searchVal (table : List Slot) (ps : List Nat) (k : Key) : Val :=
  match ps with
  | [] => none
  | i :: rest =>
    match table.getD i none with
    | some (k', v) => if k' = k then v else searchVal table rest k
    | none => searchVal table rest k

/-- `_search`. -/
def search (t : HashTable) (k : Key) : Except PyErr Val := do
  let ps ← probeSequence t.size k
  pure (searchVal t.table ps k)

/-- The loop body of `_add`: at the first empty slot store the pair and
report an insertion; at the first slot whose key matches overwrite the
value in place; `none` if the probe list is exhausted (table "full").
The returned flag is `true` when the counter must be incremented. -/
def addLoop (table : List Slot) (ps : List Nat) (k : Key) (v : Val) :
    Option (List Slot × Bool) :=
  match ps with
  | [] => none
  | i :: rest =>
    match table.getD i none with
    | none => some (table.set i (some (k, v)), true)
    | some (k', _) =>
      if k' = k then some (table.set i (some (k, v)), false)
      else addLoop table rest k v

/-- `_add`: returns the updated table and `True`, or the unchanged
table and `False` when the probe sequence is exhausted. -/
def addItem (t : HashTable) (k : Key) (v : Val) :
    Except PyErr (HashTable × Bool) := do
  let ps ← probeSequence t.size k
  match addLoop t.table ps k v with
  | some (tbl, inc) =>
    pure ({ t with table := tbl
                   count := t.count + if inc then 1 else 0 }, true)
  | none => pure (t, false)

/-- The loop body of `_remove`: empty the first slot whose key matches;
`none` when no slot matches. -/
def removeLoop (table : List Slot) (ps : List Nat) (k : Key) :
    Option (List Slot) :=
  match ps with
  | [] => none
  | i :: rest =>
    match table.getD i none with
    | some (k', _) =>
      if k' = k then some (table.set i none) else removeLoop table rest k
    | none => removeLoop table rest k

/-- `_remove`: returns the updated table and `True`, or the unchanged
table and `False` when the key is absent. -/
def removeItem (t : HashTable) (k : Key) :
    Except PyErr (HashTable × Bool) := do
  let ps ← probeSequence t.size k
  match removeLoop t.table ps k with
  | some tbl => pure ({ t with table := tbl, count := t.count - 1 }, true)
  | none => pure (t, false)

/-- The inner reinsertion loop of `_rehash`: place the pair at the
first empty probe index; when the probe list holds no empty index the
`for` loop ends without a `break` and the pair is silently dropped. -/
def placeFirstEmpty (table : List Slot) (ps : List Nat) (k : Key) (v : Val) :
    Option (List Slot) :=
  match ps with
  | [] => none
  | i :: rest =>
    match table.getD i none with
    | none => some (table.set i (some (k, v)))
    | some _ => placeFirstEmpty table rest k v

/-- The reinsertion phase of `_rehash` over the collected old items. -/
def reinsertAll (sz : Nat) :
    List (Key × Val) → List Slot → Int → Except PyErr (List Slot × Int)
  | [], tbl, c => .ok (tbl, c)
  | (k, v) :: items, tbl, c => do
    let ps ← probeSequence sz k
    match placeFirstEmpty tbl ps k v with
    | some tbl' => reinsertAll sz items tbl' (c + 1)
    | none => reinsertAll sz items tbl c

/-- `_rehash`: collect the occupied pairs in slot order, grow the size
to `2 * size + 1`, reset the counter, and reinsert. -/
def rehash (t : HashTable) : Except PyErr HashTable := do
  let oldItems := t.table.filterMap id
  let sz := t.size * 2 + 1
  let (tbl, c) ← reinsertAll sz oldItems (List.replicate sz none) 0
  pure { size := sz, table := tbl, count := c }

/-- The retry tail of `__setitem__` after a failed `_add`: rehash and
retry once; a second failure raises `RuntimeError`. -/
def setitemRetry (t2 : HashTable) (k : Key) (v : Val) :
    Except PyErr HashTable := do
  let t3 ← rehash t2
  let (t4, ok2) ← addItem t3 k v
  if ok2 then pure t4 else .error .runtimeError

/-- The body of `__setitem__` after the load-factor check: `_add`, and
on failure the rehash-and-retry tail. -/
def setitemRest (t1 : HashTable) (k : Key) (v : Val) :
    Except PyErr HashTable := do
  let (t2, ok) ← addItem t1 k v
  if ok then pure t2 else setitemRetry t2 k v

/-- `__setitem__`: rehash when `count >= size * 0.75`, then `_add`;
on failure rehash and retry once; a second failure raises
`RuntimeError`. -/
def setitem (t : HashTable) (k : Key) (v : Val) : Except PyErr HashTable := do
  let t1 ← if 4 * t.count ≥ 3 * (t.size : Int) then rehash t else pure t
  setitemRest t1 k v

/-- `__getitem__`: `_search`, and `KeyError` when the result is
`None` (so a stored `None` value raises exactly like an absent key). -/
def getitem (t : HashTable) (k : Key) : Except PyErr Nat := do
  let v ← search t k
  match v with
  | none => .error (.keyError k)
  | some n => pure n

/-- `__delitem__`: `_remove`, and `KeyError` when nothing was
removed. -/
def delitem (t : HashTable) (k : Key) : Except PyErr HashTable := do
  let r ← removeItem t k
  if r.2 then pure r.1 else .error (.keyError k)

/-- `__contains__`: `self._search(key) is not None`. -/
def containsKey (t : HashTable) (k : Key) : Except PyErr Bool := do
  let v ← search t k
  pure v.isSome

/-- `__len__`: `int(self._count.value)`. -/
def len (t : HashTable) : Int := t.count

/-- `__iter__`: the keys of the occupied slots in physical slot
order. -/
def iterKeys (t : HashTable) : List Key :=
  t.table.filterMap (fun s => s.map Prod.fst)

/-- `find`: `_search` (returns `None` when not found). -/
def find (t : HashTable) (k : Key) : Except PyErr Val := search t k

/-- `remove`: boolean-convenience deletion, `_remove`'s flag. -/
def removeBool (t : HashTable) (k : Key) : Except PyErr (HashTable × Bool) :=
  removeItem t k

/-- One client operation of the public mutating/observing API. -/
inductive Op where
  | set (k : Key) (v : Val)
  | del (k : Key)
  | rem (k : Key)
  | get (k : Key)
  | has (k : Key)
deriving DecidableEq, Repr

/-- Run one operation; observations leave the state unchanged, and any
raised exception propagates. -/
def runOp (t : HashTable) : Op → Except PyErr HashTable
  | .set k v => setitem t k v
  | .del k => delitem t k
  | .rem k => do let r ← removeItem t k; pure r.1
  | .get k => do let _ ← getitem t k; pure t
  | .has k => do let _ ← containsKey t k; pure t

/-- Run a sequence of operations from a state. -/
def runOps (t : HashTable) : List Op → Except PyErr HashTable
  | [] => .ok t
  | op :: ops => do runOps (← runOp t op) ops

/-- Number of occupied slots of a backing list. -/
def occCount (table : List Slot) : Nat := table.countP (fun s => s.isSome)

/-- What `_search` sees at one slot when looking for `k`: `some v` when
the slot is occupied by `k` (the walk stops), `none` otherwise (the
walk continues, whether the slot is empty or holds another key). -/
def matchAt (k : Key) (s : Slot) : Option Val :=
  match s with
  | some (k', v) => if k' = k then some v else none
  | none => none

/-- The structural invariant of a table state: the backing list has
exactly `size` slots and the stored counter equals the number of
occupied slots. -/
def Inv (t : HashTable) : Prop :=
  t.table.length = t.size ∧ t.count = (occCount t.table : Int)

/-- The pair `(k, v)` sits at some index of `k`'s probe sequence and
every earlier probe index holds a different key, so `_search` walking
the probe sequence returns exactly `v`. -/
def FoundWell (sz : Nat) (table : List Slot) (k : Key) (v : Val) : Prop :=
  ∃ ps l1 j l2, probeSequence sz k = .ok ps ∧ ps = l1 ++ j :: l2 ∧
    table.getD j none = some (k, v) ∧
    ∀ i ∈ l1, ∃ k' v', table.getD i none = some (k', v') ∧ k' ≠ k

/-! ### Basic list-slot lemmas -/

theorem getD_set_self {α : Type} (l : List α) {i : Nat} (a d : α)
    (h : i < l.length) : (l.set i a).getD i d = a := by
  rw [List.getD_eq_getElem?_getD, List.getElem?_set_self h]
  rfl

theorem getD_set_ne {α : Type} (l : List α) {i j : Nat} (h : i ≠ j)
    (a d : α) : (l.set i a).getD j d = l.getD j d := by
  rw [List.getD_eq_getElem?_getD, List.getElem?_set_ne h,
    ← List.getD_eq_getElem?_getD]

theorem getD_some_lt {l : List Slot} {i : Nat} {x : Key × Val}
    (h : l.getD i none = some x) : i < l.length := by
  by_contra hn
  rw [List.getD_eq_getElem?_getD, List.getElem?_eq_none (by omega)] at h
  simp at h

theorem getD_eq_getElem_of_lt {l : List Slot} {i : Nat}
    (h : i < l.length) : l.getD i none = l.get ⟨i, h⟩ := by
  rw [List.getD_eq_getElem?_getD, List.getElem?_eq_getElem h]
  rfl

theorem mem_of_getD_some {l : List Slot} {i : Nat} {x : Key × Val}
    (h : l.getD i none = some x) : some x ∈ l := by
  have hlt := getD_some_lt h
  rw [getD_eq_getElem_of_lt hlt] at h
  exact h ▸ List.getElem_mem hlt

/-! ### Occupied-slot counting -/

theorem occCount_le_length (table : List Slot) :
    occCount table ≤ table.length :=
  List.countP_le_length _

theorem occCount_replicate (n : Nat) :
    occCount (List.replicate n none) = 0 := by
  simp [occCount, List.countP_replicate]

theorem occCount_set_insert {table : List Slot} {i : Nat}
    (he : table.getD i none = none) (hlt : i < table.length)
    (x : Key × Val) :
    occCount (table.set i (some x)) = occCount table + 1 := by
  unfold occCount
  rw [List.countP_set _ _ _ _ hlt]
  rw [getD_eq_getElem_of_lt hlt] at he
  simp [List.get_eq_getElem] at he
  simp [he]

theorem occCount_set_overwrite {table : List Slot} {i : Nat} {y : Key × Val}
    (ho : table.getD i none = some y) (x : Key × Val) :
    occCount (table.set i (some x)) = occCount table := by
  have hlt := getD_some_lt ho
  unfold occCount
  rw [List.countP_set _ _ _ _ hlt]
  rw [getD_eq_getElem_of_lt hlt] at ho
  simp [List.get_eq_getElem] at ho
  have hpos : 0 < table.countP (fun s => s.isSome) := by
    rw [List.countP_pos_iff]
    exact ⟨_, List.getElem_mem hlt, by simp [ho]⟩
  simp [ho]
  omega

theorem occCount_set_delete {table : List Slot} {i : Nat} {y : Key × Val}
    (ho : table.getD i none = some y) :
    occCount table = occCount (table.set i none) + 1 := by
  have hlt := getD_some_lt ho
  unfold occCount
  rw [List.countP_set _ _ _ _ hlt]
  rw [getD_eq_getElem_of_lt hlt] at ho
  simp [List.get_eq_getElem] at ho
  have hpos : 0 < table.countP (fun s => s.isSome) := by
    rw [List.countP_pos_iff]
    exact ⟨_, List.getElem_mem hlt, by simp [ho]⟩
  simp [ho]
  omega

/-! ### Probe-sequence lemmas -/

theorem probeSequence_ok {sz : Nat} (h : 2 ≤ sz) (k : Key) :
    probeSequence sz k =
      .ok ((List.range sz).map fun i => (hash1 sz k + i * hash2 sz k) % sz) := by
  rw [probeSequence, if_neg (by omega)]

theorem probeSequence_ok_sz {sz : Nat} {k : Key} {ps : List Nat}
    (h : probeSequence sz k = .ok ps) : 2 ≤ sz := by
  by_contra hn
  rw [probeSequence, if_pos (by omega)] at h
  exact absurd h (by simp)

theorem probe_mem_lt {sz : Nat} {k : Key} {ps : List Nat}
    (h : probeSequence sz k = .ok ps) : ∀ i ∈ ps, i < sz := by
  have h2 := probeSequence_ok_sz h
  rw [probeSequence_ok h2] at h
  cases h
  intro i hi
  rw [List.mem_map] at hi
  obtain ⟨j, _, rfl⟩ := hi
  exact Nat.mod_lt _ (by omega)

theorem probe_length {sz : Nat} {k : Key} {ps : List Nat}
    (h : probeSequence sz k = .ok ps) : ps.length = sz := by
  have h2 := probeSequence_ok_sz h
  rw [probeSequence_ok h2] at h
  cases h
  simp

theorem hash2_pos (sz : Nat) (k : Key) : 1 ≤ hash2 sz k := by
  simp [hash2]

theorem hash2_le {sz : Nat} (h : 2 ≤ sz) (k : Key) :
    hash2 sz k ≤ sz - 1 := by
  have : keyHash k % (sz - 1) < sz - 1 := Nat.mod_lt _ (by omega)
  unfold hash2
  omega

/-! ### The match projection `matchAt` -/

theorem matchAt_eq_some {k : Key} {s : Slot} {v : Val} :
    matchAt k s = some v ↔ s = some (k, v) := by
  cases s with
  | none => simp [matchAt]
  | some kv =>
    obtain ⟨k', v'⟩ := kv
    by_cases hk : k' = k
    · subst hk
      simp [matchAt]
    · simp only [matchAt, if_neg hk]
      constructor
      · intro h
        exact absurd h (by simp)
      · intro h
        rw [Option.some.injEq, Prod.mk.injEq] at h
        exact absurd h.1 hk

theorem matchAt_eq_none {k : Key} {s : Slot} :
    matchAt k s = none ↔ s = none ∨ ∃ k' v', s = some (k', v') ∧ k' ≠ k := by
  cases s with
  | none => simp [matchAt]
  | some kv =>
    obtain ⟨k', v'⟩ := kv
    by_cases hk : k' = k
    · subst hk
      simp [matchAt]
    · simp only [matchAt, if_neg hk]
      simp [hk]

/-! ### `searchVal` lemmas -/

theorem searchVal_cons (table : List Slot) (i : Nat) (rest : List Nat)
    (k : Key) :
    searchVal table (i :: rest) k =
      match table.getD i none with
      | some (k', v) => if k' = k then v else searchVal table rest k
      | none => searchVal table rest k := rfl

theorem searchVal_cons_eq (table : List Slot) (i : Nat) (rest : List Nat)
    (k : Key) :
    searchVal table (i :: rest) k =
      match matchAt k (table.getD i none) with
      | some v => v
      | none => searchVal table rest k := by
  rw [searchVal_cons]
  cases hs : table.getD i none with
  | none => rfl
  | some kv =>
    obtain ⟨k', v'⟩ := kv
    by_cases hk : k' = k
    · simp only [matchAt, if_pos hk]
    · simp only [matchAt, if_neg hk]

theorem searchVal_cons_match {table : List Slot} {i : Nat} {rest : List Nat}
    {k : Key} {v : Val} (h : table.getD i none = some (k, v)) :
    searchVal table (i :: rest) k = v := by
  rw [searchVal_cons_eq, matchAt_eq_some.mpr h]

theorem searchVal_cons_skip {table : List Slot} {i : Nat} {rest : List Nat}
    {k : Key} (h : matchAt k (table.getD i none) = none) :
    searchVal table (i :: rest) k = searchVal table rest k := by
  rw [searchVal_cons_eq, h]

theorem searchVal_append_skip {table : List Slot} {l1 rest : List Nat}
    {k : Key} (h : ∀ i ∈ l1, matchAt k (table.getD i none) = none) :
    searchVal table (l1 ++ rest) k = searchVal table rest k := by
  induction l1 with
  | nil => rfl
  | cons i l ih =>
    rw [List.cons_append, searchVal_cons_skip (h i (by simp))]
    exact ih fun a ha => h a (by simp [ha])

theorem searchVal_congr {t1 t2 : List Slot} {ps : List Nat} {k : Key}
    (h : ∀ i ∈ ps, matchAt k (t1.getD i none) = matchAt k (t2.getD i none)) :
    searchVal t1 ps k = searchVal t2 ps k := by
  induction ps with
  | nil => rfl
  | cons i rest ih =>
    rw [searchVal_cons_eq, searchVal_cons_eq, h i (by simp),
      ih fun a ha => h a (by simp [ha])]

theorem searchVal_some_mem {table : List Slot} {ps : List Nat} {k : Key}
    {n : Nat} (h : searchVal table ps k = some n) :
    some (k, some n) ∈ table := by
  induction ps with
  | nil => simp [searchVal] at h
  | cons i rest ih =>
    rw [searchVal_cons_eq] at h
    cases hm : matchAt k (table.getD i none) with
    | none => rw [hm] at h; exact ih h
    | some v =>
      rw [hm] at h
      have h' : v = some n := h
      have hs := matchAt_eq_some.mp hm
      rw [h'] at hs
      exact mem_of_getD_some hs

/-! ### Decomposition of the probe loops -/

theorem addLoop_cons (table : List Slot) (i : Nat) (rest : List Nat)
    (k : Key) (v : Val) :
    addLoop table (i :: rest) k v =
      match table.getD i none with
      | none => some (table.set i (some (k, v)), true)
      | some (k', _) =>
        if k' = k then some (table.set i (some (k, v)), false)
        else addLoop table rest k v := rfl

theorem removeLoop_cons (table : List Slot) (i : Nat) (rest : List Nat)
    (k : Key) :
    removeLoop table (i :: rest) k =
      match table.getD i none with
      | some (k', _) =>
        if k' = k then some (table.set i none) else removeLoop table rest k
      | none => removeLoop table rest k := rfl

theorem placeFirstEmpty_cons (table : List Slot) (i : Nat) (rest : List Nat)
    (k : Key) (v : Val) :
    placeFirstEmpty table (i :: rest) k v =
      match table.getD i none with
      | none => some (table.set i (some (k, v)))
      | some _ => placeFirstEmpty table rest k v := rfl

theorem addLoop_eq_none {table : List Slot} {k : Key} {v : Val} :
    ∀ {ps : List Nat}, addLoop table ps k v = none →
    ∀ i ∈ ps, ∃ k' v', table.getD i none = some (k', v') ∧ k' ≠ k := by
  intro ps
  induction ps with
  | nil => simp
  | cons i rest ih =>
    intro h a ha
    cases hs : table.getD i none with
    | none =>
      simp only [addLoop_cons, hs] at h
      exact Option.noConfusion h
    | some kv =>
      obtain ⟨k', v'⟩ := kv
      simp only [addLoop_cons, hs] at h
      by_cases hk : k' = k
      · rw [if_pos hk] at h
        exact absurd h (by simp)
      · rw [if_neg hk] at h
        rcases List.mem_cons.mp ha with rfl | ha'
        · exact ⟨k', v', hs, hk⟩
        · exact ih h a ha'

theorem addLoop_some_spec {table : List Slot} {k : Key} {v : Val} :
    ∀ {ps : List Nat} {tbl : List Slot} {inc : Bool},
    addLoop table ps k v = some (tbl, inc) →
    ∃ l1 j l2, ps = l1 ++ j :: l2 ∧
      tbl = table.set j (some (k, v)) ∧
      (∀ i ∈ l1, ∃ k' v', table.getD i none = some (k', v') ∧ k' ≠ k) ∧
      ((table.getD j none = none ∧ inc = true) ∨
        ((∃ v₀, table.getD j none = some (k, v₀)) ∧ inc = false)) := by
  intro ps
  induction ps with
  | nil => intro tbl inc h; simp [addLoop] at h
  | cons i rest ih =>
    intro tbl inc h
    cases hs : table.getD i none with
    | none =>
      simp only [addLoop_cons, hs, Option.some.injEq, Prod.mk.injEq] at h
      exact ⟨[], i, rest, by simp, h.1.symm, by simp,
        Or.inl ⟨hs, h.2.symm⟩⟩
    | some kv =>
      obtain ⟨k', v'⟩ := kv
      simp only [addLoop_cons, hs] at h
      by_cases hk : k' = k
      · rw [if_pos hk] at h
        simp only [Option.some.injEq, Prod.mk.injEq] at h
        exact ⟨[], i, rest, by simp, h.1.symm, by simp,
          Or.inr ⟨⟨v', by rw [hs, hk]⟩, h.2.symm⟩⟩
      · rw [if_neg hk] at h
        obtain ⟨l1, j, l2, hps, htbl, hpre, hbr⟩ := ih h
        exact ⟨i :: l1, j, l2, by rw [hps]; rfl, htbl,
          fun a ha => by
            rcases List.mem_cons.mp ha with rfl | ha'
            · exact ⟨k', v', hs, hk⟩
            · exact hpre a ha', hbr⟩

theorem removeLoop_some_spec {table : List Slot} {k : Key} :
    ∀ {ps : List Nat} {tbl : List Slot},
    removeLoop table ps k = some tbl →
    ∃ l1 j l2, ps = l1 ++ j :: l2 ∧
      tbl = table.set j none ∧
      (∃ v₀, table.getD j none = some (k, v₀)) ∧
      ∀ i ∈ l1, matchAt k (table.getD i none) = none := by
  intro ps
  induction ps with
  | nil => intro tbl h; simp [removeLoop] at h
  | cons i rest ih =>
    intro tbl h
    cases hs : table.getD i none with
    | none =>
      simp only [removeLoop_cons, hs] at h
      obtain ⟨l1, j, l2, hps, htbl, hj, hpre⟩ := ih h
      exact ⟨i :: l1, j, l2, by rw [hps]; rfl, htbl, hj,
        fun a ha => by
          rcases List.mem_cons.mp ha with rfl | ha'
          · rw [hs]; rfl
          · exact hpre a ha'⟩
    | some kv =>
      obtain ⟨k', v'⟩ := kv
      simp only [removeLoop_cons, hs] at h
      by_cases hk : k' = k
      · rw [if_pos hk] at h
        simp only [Option.some.injEq] at h
        exact ⟨[], i, rest, by simp, h.symm, ⟨v', by rw [hs, hk]⟩, by simp⟩
      · rw [if_neg hk] at h
        obtain ⟨l1, j, l2, hps, htbl, hj, hpre⟩ := ih h
        exact ⟨i :: l1, j, l2, by rw [hps]; rfl, htbl, hj,
          fun a ha => by
            rcases List.mem_cons.mp ha with rfl | ha'
            · rw [hs]; exact matchAt_eq_none.mpr (Or.inr ⟨k', v', rfl, hk⟩)
            · exact hpre a ha'⟩

theorem placeFirstEmpty_some_spec {table : List Slot} {k : Key} {v : Val} :
    ∀ {ps : List Nat} {tbl : List Slot},
    placeFirstEmpty table ps k v = some tbl →
    ∃ l1 j l2, ps = l1 ++ j :: l2 ∧
      tbl = table.set j (some (k, v)) ∧
      table.getD j none = none ∧
      ∀ i ∈ l1, ∃ x, table.getD i none = some x := by
  intro ps
  induction ps with
  | nil => intro tbl h; simp [placeFirstEmpty] at h
  | cons i rest ih =>
    intro tbl h
    cases hs : table.getD i none with
    | none =>
      simp only [placeFirstEmpty_cons, hs, Option.some.injEq] at h
      exact ⟨[], i, rest, by simp, h.symm, hs, by simp⟩
    | some x =>
      simp only [placeFirstEmpty_cons, hs] at h
      obtain ⟨l1, j, l2, hps, htbl, hj, hpre⟩ := ih h
      exact ⟨i :: l1, j, l2, by rw [hps]; rfl, htbl, hj,
        fun a ha => by
          rcases List.mem_cons.mp ha with rfl | ha'
          · exact ⟨x, hs⟩
          · exact hpre a ha'⟩

theorem placeFirstEmpty_eq_none {table : List Slot} {k : Key} {v : Val} :
    ∀ {ps : List Nat}, placeFirstEmpty table ps k v = none →
    ∀ i ∈ ps, ∃ x, table.getD i none = some x := by
  intro ps
  induction ps with
  | nil => simp
  | cons i rest ih =>
    intro h a ha
    cases hs : table.getD i none with
    | none =>
      simp only [placeFirstEmpty_cons, hs] at h
      exact Option.noConfusion h
    | some x =>
      simp only [placeFirstEmpty_cons, hs] at h
      rcases List.mem_cons.mp ha with rfl | ha'
      · exact ⟨x, hs⟩
      · exact ih h a ha'

/-! ### Full probe coverage for prime sizes -/

theorem probe_inj {sz : Nat} (hp : sz.Prime) (k : Key) {i j : Nat}
    (hi : i < sz) (hj : j < sz)
    (h : (hash1 sz k + i * hash2 sz k) % sz
        = (hash1 sz k + j * hash2 sz k) % sz) :
    i = j := by
  have h2 : 2 ≤ sz := hp.two_le
  have hpos := hash2_pos sz k
  have hlt : hash2 sz k < sz := by have := hash2_le h2 k; omega
  have hmod : i * hash2 sz k ≡ j * hash2 sz k [MOD sz] :=
    Nat.ModEq.add_left_cancel' (hash1 sz k) h
  have hcop : sz.Coprime (hash2 sz k) :=
    (hp.coprime_iff_not_dvd).mpr fun hdvd =>
      absurd (Nat.le_of_dvd (by omega) hdvd) (by omega)
  have hij : i ≡ j [MOD sz] :=
    Nat.ModEq.cancel_right_of_coprime hcop hmod
  have hij' : i % sz = j % sz := hij
  rwa [Nat.mod_eq_of_lt hi, Nat.mod_eq_of_lt hj] at hij'

theorem probe_covers {sz : Nat} (hp : sz.Prime) (k : Key) {ps : List Nat}
    (h : probeSequence sz k = .ok ps) : ∀ j < sz, j ∈ ps := by
  have h2 : 2 ≤ sz := hp.two_le
  rw [probeSequence_ok h2 k] at h
  cases h
  intro j hj
  have hszpos : 0 < sz := by omega
  let f : Fin sz → Fin sz := fun i =>
    ⟨(hash1 sz k + i.1 * hash2 sz k) % sz, Nat.mod_lt _ hszpos⟩
  have hinj : Function.Injective f := by
    intro a b hab
    exact Fin.ext (probe_inj hp k a.2 b.2 (congrArg Fin.val hab))
  have hsurj : Function.Surjective f :=
    Finite.injective_iff_surjective.mp hinj
  obtain ⟨i, hi⟩ := hsurj ⟨j, hj⟩
  rw [List.mem_map]
  exact ⟨i.1, List.mem_range.mpr i.2, congrArg Fin.val hi⟩

theorem exists_none_of_occ_lt {table : List Slot}
    (h : occCount table < table.length) :
    ∃ i, i < table.length ∧ table.getD i none = none := by
  by_contra hn
  push_neg at hn
  have hall : ∀ a ∈ table, a.isSome := by
    intro a ha
    obtain ⟨i, hi, hEq⟩ := List.getElem_of_mem ha
    have hne := hn i hi
    rw [getD_eq_getElem_of_lt hi] at hne
    rw [List.get_eq_getElem] at hne
    rw [hEq] at hne
    exact Option.isSome_iff_ne_none.mpr hne
  have : occCount table = table.length := by
    unfold occCount
    rw [List.countP_eq_length]
    exact fun a ha => hall a ha
  omega

theorem probe_has_empty {sz : Nat} (hp : sz.Prime) {table : List Slot}
    (hlen : table.length = sz) (hocc : occCount table < sz)
    {k : Key} {ps : List Nat} (h : probeSequence sz k = .ok ps) :
    ∃ j ∈ ps, table.getD j none = none := by
  obtain ⟨i, hi, hnone⟩ :=
    exists_none_of_occ_lt (show occCount table < table.length by omega)
  exact ⟨i, probe_covers hp k h i (by omega), hnone⟩

/-! ### Unfolding lemmas for the monadic operations -/

theorem search_err {t : HashTable} {k : Key} {e : PyErr}
    (hps : probeSequence t.size k = .error e) : search t k = .error e := by
  unfold search
  rw [hps]
  rfl

theorem search_def {t : HashTable} {k : Key} {ps : List Nat}
    (hps : probeSequence t.size k = .ok ps) :
    search t k = .ok (searchVal t.table ps k) := by
  unfold search
  rw [hps]
  rfl

theorem addItem_err {t : HashTable} {k : Key} (v : Val) {e : PyErr}
    (hps : probeSequence t.size k = .error e) :
    addItem t k v = .error e := by
  unfold addItem
  rw [hps]
  rfl

theorem addItem_def {t : HashTable} {k : Key} {v : Val} {ps : List Nat}
    (hps : probeSequence t.size k = .ok ps) :
    addItem t k v =
      match addLoop t.table ps k v with
      | some (tbl, inc) =>
        .ok ({ t with table := tbl
                      count := t.count + if inc then 1 else 0 }, true)
      | none => .ok (t, false) := by
  unfold addItem
  rw [hps]
  rfl

theorem removeItem_err {t : HashTable} {k : Key} {e : PyErr}
    (hps : probeSequence t.size k = .error e) :
    removeItem t k = .error e := by
  unfold removeItem
  rw [hps]
  rfl

theorem removeItem_def {t : HashTable} {k : Key} {ps : List Nat}
    (hps : probeSequence t.size k = .ok ps) :
    removeItem t k =
      match removeLoop t.table ps k with
      | some tbl => .ok ({ t with table := tbl, count := t.count - 1 }, true)
      | none => .ok (t, false) := by
  unfold removeItem
  rw [hps]
  rfl

theorem reinsertAll_cons_err {sz : Nat} {k : Key} {v : Val}
    {items : List (Key × Val)} {tbl : List Slot} {c : Int} {e : PyErr}
    (hps : probeSequence sz k = .error e) :
    reinsertAll sz ((k, v) :: items) tbl c = .error e := by
  unfold reinsertAll
  rw [hps]
  rfl

theorem reinsertAll_cons_def {sz : Nat} {k : Key} {v : Val}
    {items : List (Key × Val)} {tbl : List Slot} {c : Int} {ps : List Nat}
    (hps : probeSequence sz k = .ok ps) :
    reinsertAll sz ((k, v) :: items) tbl c =
      match placeFirstEmpty tbl ps k v with
      | some tbl' => reinsertAll sz items tbl' (c + 1)
      | none => reinsertAll sz items tbl c := by
  conv_lhs => rw [reinsertAll]
  rw [hps]
  rfl

theorem rehash_def {t : HashTable} {tbl : List Slot} {c : Int}
    (hre : reinsertAll (t.size * 2 + 1) (t.table.filterMap id)
      (List.replicate (t.size * 2 + 1) none) 0 = .ok (tbl, c)) :
    rehash t = .ok { size := t.size * 2 + 1, table := tbl, count := c } := by
  simp only [rehash, hre]
  rfl

theorem rehash_err {t : HashTable} {e : PyErr}
    (hre : reinsertAll (t.size * 2 + 1) (t.table.filterMap id)
      (List.replicate (t.size * 2 + 1) none) 0 = .error e) :
    rehash t = .error e := by
  simp only [rehash, hre]
  rfl

theorem setitemRest_add_err {t1 : HashTable} {k : Key} {v : Val} {e : PyErr}
    (ha : addItem t1 k v = .error e) : setitemRest t1 k v = .error e := by
  unfold setitemRest
  rw [ha]
  rfl

theorem setitemRest_add_ok {t1 t2 : HashTable} {k : Key} {v : Val}
    (ha : addItem t1 k v = .ok (t2, true)) :
    setitemRest t1 k v = .ok t2 := by
  unfold setitemRest
  rw [ha]
  rfl

theorem setitemRest_add_fail {t1 t2 : HashTable} {k : Key} {v : Val}
    (ha : addItem t1 k v = .ok (t2, false)) :
    setitemRest t1 k v = setitemRetry t2 k v := by
  unfold setitemRest
  rw [ha]
  rfl

theorem setitemRetry_rehash_err {t2 : HashTable} {k : Key} {v : Val}
    {e : PyErr} (hre : rehash t2 = .error e) :
    setitemRetry t2 k v = .error e := by
  unfold setitemRetry
  rw [hre]
  rfl

theorem setitemRetry_def {t2 t3 : HashTable} {k : Key} {v : Val}
    (hre : rehash t2 = .ok t3) :
    setitemRetry t2 k v = (do
      let (t4, ok2) ← addItem t3 k v
      if ok2 then pure t4 else .error .runtimeError) := by
  unfold setitemRetry
  rw [hre]
  rfl

theorem setitem_no_trigger {t : HashTable} {k : Key} {v : Val}
    (hc : ¬ 4 * t.count ≥ 3 * (t.size : Int)) :
    setitem t k v = setitemRest t k v := by
  unfold setitem
  rw [if_neg hc]
  rfl

theorem setitem_trigger {t t1 : HashTable} {k : Key} {v : Val}
    (hc : 4 * t.count ≥ 3 * (t.size : Int)) (hre : rehash t = .ok t1) :
    setitem t k v = setitemRest t1 k v := by
  unfold setitem
  rw [if_pos hc, hre]
  rfl

theorem setitem_trigger_err {t : HashTable} {k : Key} {v : Val} {e : PyErr}
    (hc : 4 * t.count ≥ 3 * (t.size : Int)) (hre : rehash t = .error e) :
    setitem t k v = .error e := by
  unfold setitem
  rw [if_pos hc, hre]
  rfl

theorem except_bind_ok {α β : Type} (a : α) (f : α → Except PyErr β) :
    (Except.ok a >>= f) = f a := rfl

theorem except_bind_err {α β : Type} (e : PyErr) (f : α → Except PyErr β) :
    ((Except.error e : Except PyErr α) >>= f) = .error e := rfl

theorem except_pure {α : Type} (a : α) :
    (pure a : Except PyErr α) = .ok a := rfl

theorem delitem_err {t : HashTable} {k : Key} {e : PyErr}
    (hr : removeItem t k = .error e) : delitem t k = .error e := by
  unfold delitem
  rw [hr]
  rfl

theorem delitem_def {t t2 : HashTable} {k : Key} {b : Bool}
    (hr : removeItem t k = .ok (t2, b)) :
    delitem t k = if b then .ok t2 else .error (.keyError k) := by
  unfold delitem
  rw [hr]
  rfl

theorem getitem_err {t : HashTable} {k : Key} {e : PyErr}
    (hs : search t k = .error e) : getitem t k = .error e := by
  unfold getitem
  rw [hs]
  rfl

theorem getitem_none {t : HashTable} {k : Key}
    (hs : search t k = .ok none) :
    getitem t k = .error (.keyError k) := by
  unfold getitem
  rw [hs]
  rfl

theorem getitem_some {t : HashTable} {k : Key} {n : Nat}
    (hs : search t k = .ok (some n)) : getitem t k = .ok n := by
  unfold getitem
  rw [hs]
  rfl

theorem containsKey_err {t : HashTable} {k : Key} {e : PyErr}
    (hs : search t k = .error e) : containsKey t k = .error e := by
  unfold containsKey
  rw [hs]
  rfl

theorem containsKey_def {t : HashTable} {k : Key} {v : Val}
    (hs : search t k = .ok v) : containsKey t k = .ok v.isSome := by
  unfold containsKey
  rw [hs]
  rfl

theorem runOp_set (t : HashTable) (k : Key) (v : Val) :
    runOp t (.set k v) = setitem t k v := rfl

theorem runOp_del (t : HashTable) (k : Key) :
    runOp t (.del k) = delitem t k := rfl

theorem runOp_rem (t : HashTable) (k : Key) :
    runOp t (.rem k) = (removeItem t k >>= fun r => pure r.1) := rfl

theorem runOp_get (t : HashTable) (k : Key) :
    runOp t (.get k) = (getitem t k >>= fun _ => pure t) := rfl

theorem runOp_has (t : HashTable) (k : Key) :
    runOp t (.has k) = (containsKey t k >>= fun _ => pure t) := rfl

theorem runOps_cons (t : HashTable) (op : Op) (ops : List Op) :
    runOps t (op :: ops) = (runOp t op).bind fun t' => runOps t' ops := rfl

theorem runOps_cons_ok {t t' : HashTable} {op : Op} {ops : List Op}
    (h : runOp t op = .ok t') :
    runOps t (op :: ops) = runOps t' ops := by
  rw [runOps_cons, h]
  rfl

/-! ### Preservation of the structural invariant -/

theorem Inv_mk (n : Nat) : Inv (mk' n) := by
  constructor
  · simp [mk']
  · simp [mk', occCount_replicate]

theorem addItem_false_eq {t t' : HashTable} {k : Key} {v : Val}
    (h : addItem t k v = .ok (t', false)) : t' = t := by
  cases hps : probeSequence t.size k with
  | error e => rw [addItem_err v hps] at h; cases h
  | ok ps =>
    rw [addItem_def hps] at h
    cases hal : addLoop t.table ps k v with
    | none =>
      rw [hal] at h
      cases h
      rfl
    | some p =>
      obtain ⟨tbl, inc⟩ := p
      rw [hal] at h
      cases h

theorem Inv_addItem {t t' : HashTable} {k : Key} {v : Val} {b : Bool}
    (hI : Inv t) (h : addItem t k v = .ok (t', b)) : Inv t' := by
  obtain ⟨hlen, hcnt⟩ := hI
  cases hps : probeSequence t.size k with
  | error e => rw [addItem_err v hps] at h; cases h
  | ok ps =>
    rw [addItem_def hps] at h
    cases hal : addLoop t.table ps k v with
    | none =>
      rw [hal] at h
      cases h
      exact ⟨hlen, hcnt⟩
    | some p =>
      obtain ⟨tbl, inc⟩ := p
      rw [hal] at h
      cases h
      obtain ⟨l1, j, l2, hpseq, htbl, hpre, hbr⟩ := addLoop_some_spec hal
      have hjlt : j < t.table.length := by
        rw [hlen]
        exact probe_mem_lt hps j (by rw [hpseq]; simp)
      rcases hbr with ⟨hemp, rfl⟩ | ⟨⟨v0, hocc⟩, rfl⟩
      · refine ⟨by simp [htbl, hlen], ?_⟩
        simp only [htbl]
        rw [occCount_set_insert hemp hjlt]
        push_cast
        omega
      · refine ⟨by simp [htbl, hlen], ?_⟩
        simp only [htbl]
        rw [occCount_set_overwrite hocc]
        simpa using hcnt

theorem Inv_removeItem {t t' : HashTable} {k : Key} {b : Bool}
    (hI : Inv t) (h : removeItem t k = .ok (t', b)) : Inv t' := by
  obtain ⟨hlen, hcnt⟩ := hI
  cases hps : probeSequence t.size k with
  | error e => rw [removeItem_err hps] at h; cases h
  | ok ps =>
    rw [removeItem_def hps] at h
    cases hrl : removeLoop t.table ps k with
    | none =>
      rw [hrl] at h
      cases h
      exact ⟨hlen, hcnt⟩
    | some tbl =>
      rw [hrl] at h
      cases h
      obtain ⟨l1, j, l2, hpseq, htbl, ⟨v0, hocc⟩, hpre⟩ :=
        removeLoop_some_spec hrl
      have hdel := occCount_set_delete hocc
      refine ⟨by simp [htbl, hlen], ?_⟩
      simp only [htbl]
      have : (occCount t.table : Int) = occCount (t.table.set j none) + 1 := by
        exact_mod_cast congrArg (Nat.cast : Nat → Int) hdel
      omega

theorem reinsertAll_inv {sz : Nat} :
    ∀ {items : List (Key × Val)} {tbl tbl' : List Slot} {c c' : Int},
    reinsertAll sz items tbl c = .ok (tbl', c') →
    tbl.length = sz → c = (occCount tbl : Int) →
    tbl'.length = sz ∧ c' = (occCount tbl' : Int) := by
  intro items
  induction items with
  | nil =>
    intro tbl tbl' c c' h hlen hc
    unfold reinsertAll at h
    cases h
    exact ⟨hlen, hc⟩
  | cons kv items ih =>
    obtain ⟨k, v⟩ := kv
    intro tbl tbl' c c' h hlen hc
    cases hps : probeSequence sz k with
    | error e => rw [reinsertAll_cons_err hps] at h; cases h
    | ok ps =>
      rw [reinsertAll_cons_def hps] at h
      cases hpl : placeFirstEmpty tbl ps k v with
      | none =>
        rw [hpl] at h
        exact ih h hlen hc
      | some tbl2 =>
        rw [hpl] at h
        obtain ⟨l1, j, l2, hpseq, htbl2, hemp, hpre⟩ :=
          placeFirstEmpty_some_spec hpl
        have hjlt : j < tbl.length := by
          rw [hlen]
          exact probe_mem_lt hps j (by rw [hpseq]; simp)
        have hlen2 : tbl2.length = sz := by simp [htbl2, hlen]
        have hc2 : c + 1 = (occCount tbl2 : Int) := by
          rw [htbl2, occCount_set_insert hemp hjlt]
          push_cast
          omega
        exact ih h hlen2 hc2

theorem rehash_ok_inv {t t' : HashTable} (h : rehash t = .ok t') :
    Inv t' := by
  cases hre : reinsertAll (t.size * 2 + 1) (t.table.filterMap id)
      (List.replicate (t.size * 2 + 1) none) 0 with
  | error e => rw [rehash_err hre] at h; cases h
  | ok p =>
    obtain ⟨tbl, c⟩ := p
    rw [rehash_def hre] at h
    cases h
    have := reinsertAll_inv hre (by simp) (by simp [occCount_replicate])
    exact ⟨this.1, this.2⟩

theorem Inv_setitemRest {t1 t' : HashTable} {k : Key} {v : Val}
    (hI : Inv t1) (h : setitemRest t1 k v = .ok t') : Inv t' := by
  cases ha : addItem t1 k v with
  | error e => rw [setitemRest_add_err ha] at h; cases h
  | ok p =>
    obtain ⟨t2, b⟩ := p
    cases b with
    | true =>
      rw [setitemRest_add_ok ha] at h
      cases h
      exact Inv_addItem hI ha
    | false =>
      rw [setitemRest_add_fail ha] at h
      cases hre : rehash t2 with
      | error e => rw [setitemRetry_rehash_err hre] at h; cases h
      | ok t3 =>
        rw [setitemRetry_def hre] at h
        cases ha2 : addItem t3 k v with
        | error e =>
          rw [ha2, except_bind_err] at h
          cases h
        | ok p2 =>
          obtain ⟨t4, b2⟩ := p2
          rw [ha2, except_bind_ok] at h
          cases b2 with
          | true =>
            have h2 : (Except.ok t4 : Except PyErr HashTable) = .ok t' := h
            cases h2
            exact Inv_addItem (rehash_ok_inv hre) ha2
          | false =>
            have h2 :
                (Except.error .runtimeError : Except PyErr HashTable)
                  = .ok t' := h
            cases h2

theorem Inv_setitem {t t' : HashTable} {k : Key} {v : Val}
    (hI : Inv t) (h : setitem t k v = .ok t') : Inv t' := by
  by_cases hc : 4 * t.count ≥ 3 * (t.size : Int)
  · cases hre : rehash t with
    | error e => rw [setitem_trigger_err hc hre] at h; cases h
    | ok t1 =>
      rw [setitem_trigger hc hre] at h
      exact Inv_setitemRest (rehash_ok_inv hre) h
  · rw [setitem_no_trigger hc] at h
    exact Inv_setitemRest hI h

theorem Inv_runOp {t t' : HashTable} {op : Op} (hI : Inv t)
    (h : runOp t op = .ok t') : Inv t' := by
  cases op with
  | set k v => exact Inv_setitem hI h
  | del k =>
    rw [runOp_del] at h
    cases hr : removeItem t k with
    | error e => rw [delitem_err hr] at h; cases h
    | ok p =>
      obtain ⟨t2, b⟩ := p
      rw [delitem_def hr] at h
      cases b with
      | true =>
        rw [if_pos rfl] at h
        cases h
        exact Inv_removeItem hI hr
      | false =>
        rw [if_neg (by simp)] at h
        cases h
  | rem k =>
    rw [runOp_rem] at h
    cases hr : removeItem t k with
    | error e => rw [hr, except_bind_err] at h; cases h
    | ok p =>
      obtain ⟨t2, b⟩ := p
      rw [hr, except_bind_ok, except_pure] at h
      cases h
      exact Inv_removeItem hI hr
  | get k =>
    rw [runOp_get] at h
    cases hg : getitem t k with
    | error e => rw [hg, except_bind_err] at h; cases h
    | ok n =>
      rw [hg, except_bind_ok, except_pure] at h
      cases h
      exact hI
  | has k =>
    rw [runOp_has] at h
    cases hg : containsKey t k with
    | error e => rw [hg, except_bind_err] at h; cases h
    | ok b =>
      rw [hg, except_bind_ok, except_pure] at h
      cases h
      exact hI

theorem Inv_runOps {ops : List Op} :
    ∀ {t t' : HashTable}, Inv t → runOps t ops = .ok t' → Inv t' := by
  induction ops with
  | nil =>
    intro t t' hI h
    cases h
    exact hI
  | cons op ops ih =>
    intro t t' hI h
    rw [runOps_cons] at h
    cases hop : runOp t op with
    | error e => rw [hop] at h; cases h
    | ok t2 =>
      rw [hop] at h
      exact ih (Inv_runOp hI hop) h

/-! ### What a successful insert looks like, and what `_search` then sees -/

theorem addItem_true_spec {t t' : HashTable} {k : Key} {v : Val}
    (h : addItem t k v = .ok (t', true)) :
    ∃ ps l1 j l2, probeSequence t.size k = .ok ps ∧ ps = l1 ++ j :: l2 ∧
      t'.size = t.size ∧
      t'.table = t.table.set j (some (k, v)) ∧
      (∀ i ∈ l1, ∃ k' v', t.table.getD i none = some (k', v') ∧ k' ≠ k) ∧
      ((t.table.getD j none = none ∧ t'.count = t.count + 1) ∨
        ((∃ v0, t.table.getD j none = some (k, v0)) ∧ t'.count = t.count)) := by
  cases hps : probeSequence t.size k with
  | error e => rw [addItem_err v hps] at h; cases h
  | ok ps =>
    rw [addItem_def hps] at h
    cases hal : addLoop t.table ps k v with
    | none => rw [hal] at h; cases h
    | some p =>
      obtain ⟨tbl, inc⟩ := p
      rw [hal] at h
      cases h
      obtain ⟨l1, j, l2, hsplit, htbl, hpre, hbr⟩ := addLoop_some_spec hal
      refine ⟨ps, l1, j, l2, rfl, hsplit, rfl, htbl, hpre, ?_⟩
      rcases hbr with ⟨hemp, rfl⟩ | ⟨hocc, rfl⟩
      · exact Or.inl ⟨hemp, by simp⟩
      · exact Or.inr ⟨hocc, by simp⟩

theorem addItem_true_search {t t' : HashTable} {k : Key} {v : Val}
    (hlen : t.table.length = t.size)
    (h : addItem t k v = .ok (t', true)) :
    search t' k = .ok v := by
  obtain ⟨ps, l1, j, l2, hps, hsplit, hsize, htbl, hpre, hbr⟩ :=
    addItem_true_spec h
  have hps' : probeSequence t'.size k = .ok ps := by rw [hsize]; exact hps
  rw [search_def hps']
  have hjlt : j < t.table.length := by
    rw [hlen]
    exact probe_mem_lt hps j (by rw [hsplit]; simp)
  have hji : ∀ i ∈ l1, j ≠ i := by
    intro i hi hij
    obtain ⟨k', v', hsi, hk⟩ := hpre i hi
    rw [← hij] at hsi
    rcases hbr with ⟨hemp, _⟩ | ⟨⟨v0, hocc⟩, _⟩
    · rw [hemp] at hsi; cases hsi
    · rw [hocc] at hsi
      rw [Option.some.injEq, Prod.mk.injEq] at hsi
      exact hk hsi.1.symm
  have hskip : ∀ i ∈ l1, matchAt k (t'.table.getD i none) = none := by
    intro i hi
    obtain ⟨k', v', hsi, hk⟩ := hpre i hi
    rw [htbl, getD_set_ne _ (hji i hi), hsi]
    exact matchAt_eq_none.mpr (Or.inr ⟨k', v', rfl, hk⟩)
  rw [hsplit, searchVal_append_skip hskip,
    searchVal_cons_match (by rw [htbl]; exact getD_set_self _ _ _ hjlt)]

theorem addLoop_append_skip {table : List Slot} {l1 rest : List Nat}
    {k : Key} {v : Val}
    (h : ∀ i ∈ l1, ∃ k' v', table.getD i none = some (k', v') ∧ k' ≠ k) :
    addLoop table (l1 ++ rest) k v = addLoop table rest k v := by
  induction l1 with
  | nil => rfl
  | cons i l ih =>
    obtain ⟨k', v', hsi, hk⟩ := h i (by simp)
    rw [List.cons_append]
    simp only [addLoop_cons, hsi]
    rw [if_neg hk]
    exact ih fun a ha => h a (by simp [ha])

theorem addItem_again {u t1 : HashTable} {k : Key} {v : Val}
    (hlen : u.table.length = u.size)
    (h : addItem u k v = .ok (t1, true)) :
    ∃ t2, addItem t1 k v = .ok (t2, true) ∧ t2.count = t1.count ∧
      t2.size = t1.size ∧ t2.table.length = t1.table.length := by
  obtain ⟨ps, l1, j, l2, hps, hsplit, hsize, htbl, hpre, hbr⟩ :=
    addItem_true_spec h
  have hps' : probeSequence t1.size k = .ok ps := by rw [hsize]; exact hps
  have hjlt : j < u.table.length := by
    rw [hlen]
    exact probe_mem_lt hps j (by rw [hsplit]; simp)
  have hji : ∀ i ∈ l1, j ≠ i := by
    intro i hi hij
    obtain ⟨k', v', hsi, hk⟩ := hpre i hi
    rw [← hij] at hsi
    rcases hbr with ⟨hemp, _⟩ | ⟨⟨v0, hocc⟩, _⟩
    · rw [hemp] at hsi; cases hsi
    · rw [hocc] at hsi
      rw [Option.some.injEq, Prod.mk.injEq] at hsi
      exact hk hsi.1.symm
  have hpre1 : ∀ i ∈ l1,
      ∃ k' v', t1.table.getD i none = some (k', v') ∧ k' ≠ k := by
    intro i hi
    obtain ⟨k', v', hsi, hk⟩ := hpre i hi
    exact ⟨k', v', by rw [htbl, getD_set_ne _ (hji i hi), hsi], hk⟩
  have hgd : t1.table.getD j none = some (k, v) := by
    rw [htbl]
    exact getD_set_self _ _ _ hjlt
  have hal : addLoop t1.table ps k v
      = some (t1.table.set j (some (k, v)), false) := by
    rw [hsplit, addLoop_append_skip hpre1]
    simp only [addLoop_cons, hgd]
    simp
  refine ⟨_, by rw [addItem_def hps', hal], by simp, by simp, by simp [htbl]⟩

theorem addItem_search_other {t t' : HashTable} {k k2 : Key} {v : Val}
    {b : Bool} (hlen : t.table.length = t.size) (hk : k ≠ k2)
    (h : addItem t k v = .ok (t', b)) :
    search t' k2 = search t k2 := by
  cases b with
  | false => rw [addItem_false_eq h]
  | true =>
    obtain ⟨ps, l1, j, l2, hps, hsplit, hsize, htbl, hpre, hbr⟩ :=
      addItem_true_spec h
    have hjlt : j < t.table.length := by
      rw [hlen]
      exact probe_mem_lt hps j (by rw [hsplit]; simp)
    cases hps2 : probeSequence t.size k2 with
    | error e =>
      rw [search_err hps2, search_err (show probeSequence t'.size k2 = _ by
        rw [hsize]; exact hps2)]
    | ok ps2 =>
      rw [search_def hps2,
        search_def (show probeSequence t'.size k2 = .ok ps2 by
          rw [hsize]; exact hps2)]
      have heq : searchVal t'.table ps2 k2 = searchVal t.table ps2 k2 := by
        apply searchVal_congr
        intro i hi
        by_cases hij : j = i
        · subst hij
          rw [htbl, getD_set_self _ _ _ hjlt]
          have hnew : matchAt k2 (some (k, v)) = none :=
            matchAt_eq_none.mpr (Or.inr ⟨k, v, rfl, hk⟩)
          rcases hbr with ⟨hemp, _⟩ | ⟨⟨v0, hocc⟩, _⟩
          · rw [hemp, hnew]
            rfl
          · rw [hocc, hnew,
              matchAt_eq_none.mpr (Or.inr ⟨k, v0, rfl, hk⟩)]
        · rw [htbl, getD_set_ne _ hij]
      rw [heq]

theorem setitem_ok_exists_add {t t' : HashTable} {k : Key} {v : Val}
    (h : setitem t k v = .ok t') :
    ∃ u, addItem u k v = .ok (t', true) ∧
      (u = t ∨ ∃ w, rehash w = .ok u) := by
  have hrest : ∀ u : HashTable, setitemRest u k v = .ok t' →
      ∃ u2, addItem u2 k v = .ok (t', true) ∧
        (u2 = u ∨ ∃ w, rehash w = .ok u2) := by
    intro u hr
    cases ha : addItem u k v with
    | error e => rw [setitemRest_add_err ha] at hr; cases hr
    | ok p =>
      obtain ⟨t2, b⟩ := p
      cases b with
      | true =>
        rw [setitemRest_add_ok ha] at hr
        cases hr
        exact ⟨u, ha, Or.inl rfl⟩
      | false =>
        rw [setitemRest_add_fail ha] at hr
        cases hre : rehash t2 with
        | error e => rw [setitemRetry_rehash_err hre] at hr; cases hr
        | ok t3 =>
          rw [setitemRetry_def hre] at hr
          cases ha2 : addItem t3 k v with
          | error e =>
            rw [ha2, except_bind_err] at hr
            cases hr
          | ok p2 =>
            obtain ⟨t4, b2⟩ := p2
            rw [ha2, except_bind_ok] at hr
            cases b2 with
            | true =>
              have h2 : (Except.ok t4 : Except PyErr HashTable) = .ok t' := hr
              cases h2
              exact ⟨t3, ha2, Or.inr ⟨t2, hre⟩⟩
            | false =>
              have h2 :
                  (Except.error .runtimeError : Except PyErr HashTable)
                    = .ok t' := hr
              cases h2
  by_cases hc : 4 * t.count ≥ 3 * (t.size : Int)
  · cases hre : rehash t with
    | error e => rw [setitem_trigger_err hc hre] at h; cases h
    | ok t1 =>
      rw [setitem_trigger hc hre] at h
      obtain ⟨u2, hu2, hor⟩ := hrest t1 h
      rcases hor with rfl | hw
      · exact ⟨u2, hu2, Or.inr ⟨t, hre⟩⟩
      · exact ⟨u2, hu2, Or.inr hw⟩
  · rw [setitem_no_trigger hc] at h
    exact hrest t h

theorem setitem_ok_search {t t' : HashTable} {k : Key} {v : Val}
    (hlen : t.table.length = t.size) (h : setitem t k v = .ok t') :
    search t' k = .ok v ∧ t'.table.length = t'.size := by
  obtain ⟨u, hu, hcase⟩ := setitem_ok_exists_add h
  have hulen : u.table.length = u.size := by
    rcases hcase with rfl | ⟨w, hw⟩
    · exact hlen
    · exact (rehash_ok_inv hw).1
  refine ⟨addItem_true_search hulen hu, ?_⟩
  obtain ⟨ps, l1, j, l2, hps, hsplit, hsize, htbl, hpre, hbr⟩ :=
    addItem_true_spec hu
  rw [htbl, hsize, List.length_set]
  exact hulen

theorem addItem_prime_true {t : HashTable} (hp : t.size.Prime)
    (hlen : t.table.length = t.size) (hocc : occCount t.table < t.size)
    (k : Key) (v : Val) :
    ∃ t', addItem t k v = .ok (t', true) := by
  have h2 : 2 ≤ t.size := hp.two_le
  have hps := probeSequence_ok h2 k
  obtain ⟨j, hjps, hempty⟩ := probe_has_empty hp hlen hocc hps
  cases hal : addLoop t.table
      ((List.range t.size).map fun i =>
        (hash1 t.size k + i * hash2 t.size k) % t.size) k v with
  | none =>
    obtain ⟨k', v', hsome, _⟩ := addLoop_eq_none hal j hjps
    rw [hempty] at hsome
    cases hsome
  | some p =>
    obtain ⟨tbl, inc⟩ := p
    refine ⟨{ t with table := tbl
                     count := t.count + if inc then 1 else 0 }, ?_⟩
    rw [addItem_def hps, hal]

theorem containsKey_true_mem {t : HashTable} {k : Key}
    (h : containsKey t k = .ok true) : ∃ n, some (k, some n) ∈ t.table := by
  cases hps : probeSequence t.size k with
  | error e => rw [containsKey_err (search_err hps)] at h; cases h
  | ok ps =>
    rw [containsKey_def (search_def hps)] at h
    cases h' : searchVal t.table ps k with
    | none => rw [h'] at h; simp at h
    | some n => exact ⟨n, searchVal_some_mem h'⟩

theorem occCount_eq_filterMap_length (table : List Slot) :
    occCount table = (table.filterMap id).length := by
  induction table with
  | nil => rfl
  | cons s rest ih =>
    cases s with
    | none => simpa [occCount, List.countP_cons] using ih
    | some x => simpa [occCount, List.countP_cons] using ih

theorem keys_filterMap (l : List Slot) :
    l.filterMap (fun s => s.map Prod.fst) = (l.filterMap id).map Prod.fst := by
  induction l with
  | nil => rfl
  | cons s rest ih =>
    cases s with
    | none => simpa using ih
    | some x => simpa using ih

theorem iterKeys_eq (t : HashTable) :
    iterKeys t = (t.table.filterMap id).map Prod.fst :=
  keys_filterMap t.table

/-! ### Rehash reinsertion: every item remains findable when the new
size is prime -/

theorem FoundWell_search {sz : Nat} {tbl : List Slot} {k : Key} {v : Val}
    (h : FoundWell sz tbl k v) {ps : List Nat}
    (hps : probeSequence sz k = .ok ps) : searchVal tbl ps k = v := by
  obtain ⟨ps', l1, j, l2, hps', hsplit, hj, hpre⟩ := h
  rw [hps'] at hps
  cases hps
  have hskip : ∀ i ∈ l1, matchAt k (tbl.getD i none) = none := by
    intro i hi
    obtain ⟨k', v', hsi, hk⟩ := hpre i hi
    rw [hsi]
    exact matchAt_eq_none.mpr (Or.inr ⟨k', v', rfl, hk⟩)
  rw [hsplit, searchVal_append_skip hskip, searchVal_cons_match hj]

theorem FoundWell_set_of_empty {sz : Nat} {tbl : List Slot} {j : Nat}
    {x : Key × Val} {k0 : Key} {v0 : Val}
    (hemp : tbl.getD j none = none) (h : FoundWell sz tbl k0 v0) :
    FoundWell sz (tbl.set j (some x)) k0 v0 := by
  obtain ⟨ps, l1, j0, l2, hps, hsplit, hj0, hpre⟩ := h
  have hne : j ≠ j0 := fun hjj => by rw [hjj, hj0] at hemp; cases hemp
  refine ⟨ps, l1, j0, l2, hps, hsplit,
    by rw [getD_set_ne _ hne]; exact hj0, ?_⟩
  intro i hi
  obtain ⟨k', v', hsi, hk⟩ := hpre i hi
  have hnei : j ≠ i := fun hji => by rw [hji, hsi] at hemp; cases hemp
  exact ⟨k', v', by rw [getD_set_ne _ hnei]; exact hsi, hk⟩

theorem reinsertAll_prime_spec {sz : Nat} (hp : sz.Prime) :
    ∀ (items done : List (Key × Val)) (tbl : List Slot) (c : Int),
    tbl.length = sz →
    done.length + items.length ≤ sz →
    ((done ++ items).map Prod.fst).Nodup →
    occCount tbl = done.length →
    (∀ kv ∈ done, FoundWell sz tbl kv.1 kv.2) →
    (∀ x : Key × Val, some x ∈ tbl → x ∈ done) →
    ∃ tbl', reinsertAll sz items tbl c
        = .ok (tbl', c + (items.length : Int)) ∧
      tbl'.length = sz ∧
      occCount tbl' = done.length + items.length ∧
      (∀ kv ∈ done ++ items, FoundWell sz tbl' kv.1 kv.2) ∧
      (∀ x : Key × Val, some x ∈ tbl' → x ∈ done ++ items) := by
  intro items
  induction items with
  | nil =>
    intro done tbl c hlen hcard hnod hocc hfw hmem
    exact ⟨tbl, by simp [reinsertAll], hlen, by simpa using hocc,
      by simpa using hfw, by simpa using hmem⟩
  | cons kv rest ih =>
    obtain ⟨k, v⟩ := kv
    intro done tbl c hlen hcard hnod hocc hfw hmem
    have h2 : 2 ≤ sz := hp.two_le
    have hps := probeSequence_ok h2 k
    have hoccsz : occCount tbl < sz := by
      rw [hocc]
      simp at hcard
      omega
    obtain ⟨j0, hj0ps, hj0emp⟩ := probe_has_empty hp hlen hoccsz hps
    cases hpl : placeFirstEmpty tbl
        ((List.range sz).map fun i => (hash1 sz k + i * hash2 sz k) % sz)
        k v with
    | none =>
      obtain ⟨x, hx⟩ := placeFirstEmpty_eq_none hpl j0 hj0ps
      rw [hj0emp] at hx
      cases hx
    | some tbl2 =>
      obtain ⟨l1, j, l2, hsplit, htbl2, hjemp, hpre⟩ :=
        placeFirstEmpty_some_spec hpl
      have hjlt : j < tbl.length := by
        rw [hlen]
        exact probe_mem_lt hps j (by rw [hsplit]; simp)
      have hlen2 : tbl2.length = sz := by
        rw [htbl2, List.length_set]
        exact hlen
      have hocc2 : occCount tbl2 = (done ++ [(k, v)]).length := by
        rw [htbl2, occCount_set_insert hjemp hjlt, hocc]
        simp
      have hknotdone : ∀ kv0 ∈ done, kv0.1 ≠ k := by
        intro kv0 hkv0 hkeq
        rw [List.map_append] at hnod
        have hdisj := (List.nodup_append.mp hnod).2.2
        exact hdisj (List.mem_map_of_mem _ hkv0) (by simp [hkeq])
      have hfw2 : ∀ kv0 ∈ done ++ [(k, v)], FoundWell sz tbl2 kv0.1 kv0.2 := by
        intro kv0 hkv0
        rcases List.mem_append.mp hkv0 with hd | hnew
        · rw [htbl2]
          exact FoundWell_set_of_empty hjemp (hfw kv0 hd)
        · have hkv0' : kv0 = (k, v) := by simpa using hnew
          subst hkv0'
          refine ⟨_, l1, j, l2, hps, hsplit,
            by rw [htbl2]; exact getD_set_self _ _ _ hjlt, ?_⟩
          intro i hi
          obtain ⟨x, hx⟩ := hpre i hi
          obtain ⟨kx, vx⟩ := x
          have hxmem : (kx, vx) ∈ done := hmem _ (mem_of_getD_some hx)
          have hne : j ≠ i := fun hji => by rw [hji, hx] at hjemp; cases hjemp
          exact ⟨kx, vx, by rw [htbl2, getD_set_ne _ hne]; exact hx,
            hknotdone _ hxmem⟩
      have hmem2 : ∀ x : Key × Val, some x ∈ tbl2 → x ∈ done ++ [(k, v)] := by
        intro x hx
        rw [htbl2] at hx
        rcases List.mem_or_eq_of_mem_set hx with hmem' | heq
        · exact List.mem_append.mpr (Or.inl (hmem x hmem'))
        · rw [Option.some.injEq] at heq
          exact List.mem_append.mpr (Or.inr (by simp [heq]))
      have hcard2 : (done ++ [(k, v)]).length + rest.length ≤ sz := by
        simp at hcard ⊢
        omega
      have hnod2 : (((done ++ [(k, v)]) ++ rest).map Prod.fst).Nodup := by
        rw [List.append_assoc]
        simpa using hnod
      obtain ⟨tbl', hrec, hlen', hocc', hfw', hmem'⟩ :=
        ih (done ++ [(k, v)]) tbl2 (c + 1) hlen2 hcard2 hnod2 hocc2 hfw2 hmem2
      have hassoc : done ++ (k, v) :: rest = (done ++ [(k, v)]) ++ rest := by
        simp
      refine ⟨tbl', ?_, hlen', ?_, ?_, ?_⟩
      · rw [reinsertAll_cons_def hps]
        simp only [hpl]
        rw [hrec]
        congr 2
        simp only [List.length_cons]
        push_cast
        ring
      · rw [hocc']
        simp
        omega
      · intro kv0 hkv0
        exact hfw' kv0 (by rw [← hassoc]; exact hkv0)
      · intro x hx
        rw [hassoc]
        exact hmem' x hx

theorem rehash_prime_spec {t : HashTable} (hp : (t.size * 2 + 1).Prime)
    (hlen : t.table.length = t.size) (hnodup : (iterKeys t).Nodup) :
    ∃ t', rehash t = .ok t' ∧ t'.size = t.size * 2 + 1 ∧
      t'.table.length = t'.size ∧
      t'.count = (occCount t.table : Int) ∧
      ∀ k v, some (k, v) ∈ t.table → search t' k = .ok v := by
  have hitems : (t.table.filterMap id).length = occCount t.table :=
    (occCount_eq_filterMap_length t.table).symm
  have hcard : ([] : List (Key × Val)).length
      + (t.table.filterMap id).length ≤ t.size * 2 + 1 := by
    have h1 := occCount_le_length t.table
    simp [hitems]
    omega
  have hnod : ((([] : List (Key × Val))
      ++ t.table.filterMap id).map Prod.fst).Nodup := by
    simpa [iterKeys_eq] using hnodup
  obtain ⟨tbl', hrec, hlen', hocc', hfw', hmem'⟩ :=
    reinsertAll_prime_spec hp (t.table.filterMap id) []
      (List.replicate (t.size * 2 + 1) none) 0
      (by simp) hcard hnod (by simp [occCount_replicate])
      (by simp) (fun x hx => absurd (List.eq_of_mem_replicate hx) (by simp))
  refine ⟨_, rehash_def hrec, rfl, hlen', ?_, ?_⟩
  · simp [hitems]
  · intro k v hmem
    have hin : (k, v) ∈ t.table.filterMap id :=
      List.mem_filterMap.mpr ⟨some (k, v), hmem, rfl⟩
    have hfw := hfw' (k, v) (by simpa using hin)
    have h2 : 2 ≤ t.size * 2 + 1 := hp.two_le
    rw [search_def (probeSequence_ok h2 k),
      FoundWell_search hfw (probeSequence_ok h2 k)]

theorem getD_replicate_none (n j : Nat) :
    (List.replicate n (none : Slot)).getD j none = none := by
  rw [List.getD_eq_getElem?_getD, List.getElem?_replicate]
  split <;> rfl

/-! ## The claims -/

/-- C1, counterexample: on a fresh default table, `set(k, None)` makes
`contains(k)` false and `get(k)` raise `KeyError`, because `None` is
also the internal not-found sentinel — the claim as stated (every
value, "including falsy values such as None") is false. -/
theorem c1_counterexample :
    (setitem (mk' 13) (intKey 1) none).map
      (fun t => (containsKey t (intKey 1), getitem t (intKey 1), len t))
      = .ok (.ok false, .error (.keyError (intKey 1)), 1) := rfl

/-- C1, amended: after any successful `set(k, v)` with a non-None
value `v`, `get(k)` returns `v` and `contains(k)` is true — in any
prior table state whose backing list has `size` slots, hence after
every sequence of set/get operations with unique keys. -/
theorem c1_set_get_nonNone {t t' : HashTable} {k : Key} {n : Nat}
    (hlen : t.table.length = t.size)
    (hset : setitem t k (some n) = .ok t') :
    getitem t' k = .ok n ∧ containsKey t' k = .ok true := by
  obtain ⟨hs, _⟩ := setitem_ok_search hlen hset
  refine ⟨getitem_some hs, ?_⟩
  rw [containsKey_def hs]
  rfl

/-- C1, witness: the amended theorem applied to `set((2,2), 7)` on a
fresh default table. -/
theorem c1_witness :
    getitem { size := 13
              table := (List.replicate 13 (none : Slot)).set 2
                (some (intKey 2, some 7))
              count := 1 } (intKey 2) = .ok 7 ∧
    containsKey { size := 13
                  table := (List.replicate 13 (none : Slot)).set 2
                    (some (intKey 2, some 7))
                  count := 1 } (intKey 2) = .ok true :=
  @c1_set_get_nonNone (mk' 13)
    { size := 13
      table := (List.replicate 13 (none : Slot)).set 2
        (some (intKey 2, some 7))
      count := 1 } (intKey 2) 7 (by rfl) (by rfl)

/-- C2, failing run: from a fresh default table,
`t[14]=0; t[1]=5; del t[14]; t[1]=99` ends with two occupied slots
both holding key `1` (and `len == 2`): deletion without tombstones lets
a re-set of a key insert a duplicate into a freed slot on its probe
path, violating key uniqueness. -/
theorem c2_duplicate_keys_eval :
    (runOps (mk' 13) [.set (intKey 14) (some 0), .set (intKey 1) (some 5),
      .del (intKey 14), .set (intKey 1) (some 99)]).map
      (fun t => (iterKeys t, len t))
      = .ok ([intKey 1, intKey 1], 2) := rfl

/-- C3, failing run: continuing the duplicate-key run with
`del t[1]` succeeds, yet `get(1)` then returns the stale value `5`
instead of raising `KeyError`, and `contains(1)` stays true — the
delete removed only the first of the two slots holding key `1`. -/
theorem c3_delete_then_get_stale_eval :
    (runOps (mk' 13) [.set (intKey 14) (some 0), .set (intKey 1) (some 5),
      .del (intKey 14), .set (intKey 1) (some 99), .del (intKey 1)]).map
      (fun t => (getitem t (intKey 1), containsKey t (intKey 1), len t))
      = .ok (.ok 5, .ok true, 1) := rfl

/-- C5, counterexample: from `new(7)`, inserting 60, 65, 130, 200,
270, 1 and then a seventh key triggers the load-factor rehash to the
composite size 15; keys 60 and 270 probe only the full coset
`{0, 5, 10}` there and are silently dropped: the rehash shrinks `len`
from 6 to 4 and the dropped keys are no longer retrievable. -/
theorem c5_counterexample :
    ((runOps (mk' 7) [.set (intKey 60) (some 60), .set (intKey 65) (some 65),
        .set (intKey 130) (some 130), .set (intKey 200) (some 200),
        .set (intKey 270) (some 270), .set (intKey 1) (some 1)]).bind
      (fun t => (rehash t).map (fun tr => (t.size, len t, tr.size, len tr))))
      = .ok (7, 6, 15, 4) ∧
    ((runOps (mk' 7) [.set (intKey 60) (some 60), .set (intKey 65) (some 65),
        .set (intKey 130) (some 130), .set (intKey 200) (some 200),
        .set (intKey 270) (some 270), .set (intKey 1) (some 1),
        .set (intKey 3) (some 3)]).map
      (fun t => (t.size, len t, getitem t (intKey 60),
        getitem t (intKey 270), getitem t (intKey 65))))
      = .ok (15, 5, .error (.keyError (intKey 60)),
          .error (.keyError (intKey 270)), .ok 65) := ⟨rfl, rfl⟩

/-- C5, amended: rehash grows to `2 * size + 1` and reinserts occupied
entries by first-empty placement along the new probe sequence; an
entry whose probe sequence in the (possibly composite-sized) new table
finds no empty slot is silently dropped, decreasing `len` — but
whenever the new size is prime, every stored entry remains retrievable
with its value and `len` is unchanged. -/
theorem c5_rehash_prime_correct {t : HashTable}
    (hp : (t.size * 2 + 1).Prime)
    (hlen : t.table.length = t.size)
    (hnodup : (iterKeys t).Nodup)
    (hcount : t.count = (occCount t.table : Int)) :
    ∃ t', rehash t = .ok t' ∧ t'.size = t.size * 2 + 1 ∧
      len t' = len t ∧
      ∀ k v, some (k, v) ∈ t.table → find t' k = .ok v := by
  obtain ⟨t', hre, hsz, _, hcnt, hsearch⟩ := rehash_prime_spec hp hlen hnodup
  refine ⟨t', hre, hsz, ?_, fun k v h => hsearch k v h⟩
  rw [len, len, hcnt, hcount]

/-- C5, witness: the amended theorem applied to a two-entry table of
size 5, whose rehash target 11 is prime. -/
theorem c5_witness :
    ∃ t', rehash { size := 5
                   table := [none, some (intKey 1, some 1),
                     some (intKey 2, some 2), none, none]
                   count := 2 } = .ok t' ∧
      t'.size = 5 * 2 + 1 ∧
      len t' = len { size := 5
                     table := [none, some (intKey 1, some 1),
                       some (intKey 2, some 2), none, none]
                     count := 2 } ∧
      ∀ k v, some (k, v) ∈ [none, some (intKey 1, some 1),
          some (intKey 2, some 2), none, (none : Slot)] →
        find t' k = .ok v :=
  c5_rehash_prime_correct (by decide) (by decide) (by decide) (by decide)

/-- C6, counterexample: from the default size 13, inserting the ten
integer keys 190, 424, 892, 1846, 9568, 17290, 25012, 32734, 1, 2 and
then setting key 658 raises the `RuntimeError` of the
rehash-and-retry branch: the load-factor rehash grows to the composite
size 27 where 658 probes only the full coset `{10, 19, 1}`, and the
retry rehash grows to the composite size 55 where 658 probes only the
full coset `{53, 9, 20, 31, 42}` — the "unreachable" branch is
reachable. -/
theorem c6_counterexample :
    runOps (mk' 13)
      ([190, 424, 892, 1846, 9568, 17290, 25012, 32734, 1, 2].map
        (fun n => .set (intKey n) (some n)) ++ [.set (intKey 658) (some 0)])
      = .error .runtimeError := rfl

/-- C6, amended: an insert into a table of prime size with fewer
occupied slots than its size always finds an empty or matching slot,
so `_add` succeeds at once and `__setitem__` returns without entering
the retry branch; hence the fatal branch cannot fire while the table
still has its (prime) initial size 13, but it is reachable once growth
reaches the composite sizes 27 and 55. -/
theorem c6_add_prime_succeeds {t : HashTable} (hp : t.size.Prime)
    (hlen : t.table.length = t.size) (hocc : occCount t.table < t.size)
    (k : Key) (v : Val) :
    ∃ t', addItem t k v = .ok (t', true) ∧ setitemRest t k v = .ok t' := by
  obtain ⟨t', h⟩ := addItem_prime_true hp hlen hocc k v
  exact ⟨t', h, setitemRest_add_ok h⟩

/-- C6, witness: the amended theorem applied to a fresh default
table. -/
theorem c6_witness :
    ∃ t', addItem (mk' 13) (intKey 5) (some 1) = .ok (t', true) ∧
      setitemRest (mk' 13) (intKey 5) (some 1) = .ok t' :=
  c6_add_prime_succeeds (by decide) (by decide) (by decide)
    (intKey 5) (some 1)

/-- C9: starting from a fresh table of any initial size, after every
successful sequence of operations the stored counter (`len`) equals
the number of occupied slots of the backing list — insert, overwrite,
delete and rehash all preserve the invariant. -/
theorem c9_count_invariant {n : Nat} {ops : List Op} {t : HashTable}
    (h : runOps (mk' n) ops = .ok t) :
    len t = (occCount t.table : Int) :=
  (Inv_runOps (Inv_mk n) h).2

/-- C9, witness: the invariant theorem applied to a concrete run. -/
theorem c9_witness :
    len { size := 5
          table := [none, some (intKey 1, some 4), none, none, none]
          count := 1 }
      = (occCount [none, some (intKey 1, some 4), none, none,
          (none : Slot)] : Int) :=
  @c9_count_invariant 5 [.set (intKey 1) (some 4)]
    { size := 5
      table := [none, some (intKey 1, some 4), none, none, none]
      count := 1 } (by rfl)

/-- C10: constructing a table with `initial_size = 1` succeeds (no
validation is performed: the state is a well-formed one-slot table),
but every subsequent `set`, `get`, `delete` or `contains` call raises
`ZeroDivisionError` from the secondary hash, whose modulus
`size - 1` is zero — the error surfaces on first use, not at
construction. -/
theorem c10_size_one_zero_div :
    (mk' 1).size = 1 ∧ (mk' 1).table = [none] ∧ (mk' 1).count = 0 ∧
    ∀ (k : Key) (v : Val),
      setitem (mk' 1) k v = .error .zeroDiv ∧
      getitem (mk' 1) k = .error .zeroDiv ∧
      delitem (mk' 1) k = .error .zeroDiv ∧
      containsKey (mk' 1) k = .error .zeroDiv := by
  refine ⟨rfl, rfl, rfl, ?_⟩
  intro k v
  have hps : probeSequence (mk' 1).size k = .error .zeroDiv := rfl
  refine ⟨?_, ?_, ?_, ?_⟩
  · rw [setitem_no_trigger (by decide), setitemRest_add_err (addItem_err v hps)]
  · rw [getitem_err (search_err hps)]
  · rw [delitem_err (removeItem_err hps)]
  · rw [containsKey_err (search_err hps)]

/-- C7: for every key and every size at least 2, the primary hash is
`hash(key) mod size`, the secondary hash `1 + (hash(key) mod
(size - 1))` always lies in `[1, size - 1]` (never zero), and the
probe sequence is exactly the `size` indices `(h1 + i * h2) mod size`
for `i = 0 .. size - 1`, in that order. -/
theorem c7_probe_spec {sz : Nat} (hsz : 2 ≤ sz) (k : Key) :
    hash1 sz k = keyHash k % sz ∧
    (1 ≤ hash2 sz k ∧ hash2 sz k ≤ sz - 1) ∧
    ∃ ps, probeSequence sz k = .ok ps ∧ ps.length = sz ∧
      ∀ i, i < sz → ps.getD i 0 = (hash1 sz k + i * hash2 sz k) % sz := by
  refine ⟨rfl, ⟨hash2_pos sz k, hash2_le hsz k⟩, _,
    probeSequence_ok hsz k, by simp, ?_⟩
  intro i hi
  rw [List.getD_eq_getElem?_getD, List.getElem?_map, List.getElem?_range hi]
  rfl

/-- C7, witness: the probe-sequence specification at size 13 and the
integer key 7. -/
theorem c7_witness :
    hash1 13 (intKey 7) = keyHash (intKey 7) % 13 ∧
    (1 ≤ hash2 13 (intKey 7) ∧ hash2 13 (intKey 7) ≤ 13 - 1) ∧
    ∃ ps, probeSequence 13 (intKey 7) = .ok ps ∧ ps.length = 13 ∧
      ∀ i, i < 13 →
        ps.getD i 0 = (hash1 13 (intKey 7) + i * hash2 13 (intKey 7)) % 13 :=
  c7_probe_spec (by decide) (intKey 7)

/-- C4, failing run: after `t[14]=0; t[1]=5; del t[14]; t[1]=99` from
a fresh default table, `len()` is 2 but key `1` is the only key for
which `contains` is true — the duplicate created by re-setting a key
across a freed slot makes the counter overshoot the number of distinct
contained keys. -/
theorem c4_len_vs_contains_eval :
    ∃ t, runOps (mk' 13) [.set (intKey 14) (some 0), .set (intKey 1) (some 5),
        .del (intKey 14), .set (intKey 1) (some 99)] = .ok t ∧
      len t = 2 ∧ ∀ k : Key, containsKey t k = .ok true ↔ k = intKey 1 := by
  refine ⟨{ size := 13
            table := [none, some (intKey 1, some 99), none,
              some (intKey 1, some 5), none, none, none, none, none, none,
              none, none, none]
            count := 2 }, by rfl, by rfl, ?_⟩
  intro k
  constructor
  · intro h
    obtain ⟨n, hmem⟩ := containsKey_true_mem h
    simp only [List.mem_cons, List.not_mem_nil, or_false,
      reduceCtorEq, false_or, Option.some.injEq, Prod.mk.injEq] at hmem
    rcases hmem with h1 | h2
    · exact h1.1
    · exact h2.1
  · rintro rfl
    rfl

/-- C8, counterexample: from `new(7)`, after inserting 60, 65, 130,
200, 270 and `set(1, 10)`, `len()` is 6; repeating the identical
`set(1, 10)` triggers the load-factor rehash to the composite size 15,
which silently drops keys 60 and 270, so `len()` becomes 4 — the
immediate repetition of a `set` changed `len()`. -/
theorem c8_counterexample :
    (runOps (mk' 7) [.set (intKey 60) (some 60), .set (intKey 65) (some 65),
      .set (intKey 130) (some 130), .set (intKey 200) (some 200),
      .set (intKey 270) (some 270), .set (intKey 1) (some 10)]).map len
      = .ok 6 ∧
    (runOps (mk' 7) [.set (intKey 60) (some 60), .set (intKey 65) (some 65),
      .set (intKey 130) (some 130), .set (intKey 200) (some 200),
      .set (intKey 270) (some 270), .set (intKey 1) (some 10),
      .set (intKey 1) (some 10)]).map
      (fun t => (len t, getitem t (intKey 1))) = .ok (4, .ok 10) :=
  ⟨rfl, rfl⟩

/-- C8, amended: the concrete scenario
`new(13); set(a, 1); set(b, 2); set(a, 3)` ends with `len == 2`,
`get(a) == 3` and `get(b) == 2` for any two distinct keys `a`, `b`
with arbitrary hashes; and an immediately repeated `set(k, v)` leaves
`len()` unchanged with `get(k) == v` provided the second call does not
trigger the load-factor rehash (which can otherwise drop entries and
change `len()`). -/
theorem c8_overwrite_spec :
    (∀ ha hb : Nat,
      ∃ t, runOps (mk' 13) [.set (0, ha) (some 1), .set (1, hb) (some 2),
          .set (0, ha) (some 3)] = .ok t ∧
        len t = 2 ∧ getitem t (0, ha) = .ok 3 ∧ getitem t (1, hb) = .ok 2) ∧
    (∀ (t t1 : HashTable) (k : Key) (v : Val),
      t.table.length = t.size → setitem t k v = .ok t1 →
      ¬ 4 * t1.count ≥ 3 * (t1.size : Int) →
      ∃ t2, setitem t1 k v = .ok t2 ∧ len t2 = len t1 ∧
        find t2 k = .ok v) := by
  constructor
  · intro ha hb
    have hab : ((0, ha) : Key) ≠ (1, hb) := by
      intro hEq
      rw [Prod.mk.injEq] at hEq
      cases hEq.1
    have hI0 : Inv (mk' 13) := Inv_mk 13
    have hp0 : (mk' 13).size.Prime := by decide
    have hocc0 : occCount (mk' 13).table < (mk' 13).size := by decide
    obtain ⟨t1, h1⟩ := addItem_prime_true hp0 hI0.1 hocc0 (0, ha) (some 1)
    have hset1 : setitem (mk' 13) (0, ha) (some 1) = .ok t1 := by
      rw [setitem_no_trigger (by decide), setitemRest_add_ok h1]
    have hI1 : Inv t1 := Inv_addItem hI0 h1
    obtain ⟨ps1, l11, j1, l21, hps1, hsplit1, hsize1, htbl1, hpre1, hbr1⟩ :=
      addItem_true_spec h1
    have hreplC : ∀ j : Nat, (mk' 13).table.getD j none = none :=
      fun j => getD_replicate_none 13 j
    have hcnt1 : t1.count = 1 := by
      rcases hbr1 with ⟨_, hc⟩ | ⟨⟨v0, hocc⟩, _⟩
      · rw [hc]; decide
      · rw [hreplC j1] at hocc; cases hocc
    have hl11 : l11 = [] := by
      cases l11 with
      | nil => rfl
      | cons i rest' =>
        obtain ⟨k', v', hocc, _⟩ := hpre1 i (by simp)
        rw [hreplC i] at hocc
        cases hocc
    have hps1e : ps1 = j1 :: l21 := by
      rw [hsplit1, hl11]
      rfl
    have hsz1 : t1.size = 13 := by rw [hsize1]; rfl
    have hj1lt0 : j1 < (mk' 13).table.length :=
      probe_mem_lt hps1 j1 (by rw [hsplit1]; simp)
    have hj1slot : t1.table.getD j1 none = some ((0, ha), some 1) := by
      rw [htbl1]
      exact getD_set_self _ _ _ hj1lt0
    have hocc1 : occCount t1.table < t1.size := by
      have hc2 := hI1.2
      rw [hcnt1] at hc2
      have hocceq : occCount t1.table = 1 := by exact_mod_cast hc2.symm
      rw [hocceq, hsz1]
      omega
    have hp1 : t1.size.Prime := by
      rw [hsz1]
      decide
    obtain ⟨t2, h2⟩ := addItem_prime_true hp1 hI1.1 hocc1 (1, hb) (some 2)
    have hset2 : setitem t1 (1, hb) (some 2) = .ok t2 := by
      have hno : ¬ 4 * t1.count ≥ 3 * (t1.size : Int) := by
        rw [hcnt1, hsz1]
        decide
      rw [setitem_no_trigger hno, setitemRest_add_ok h2]
    have hI2 : Inv t2 := Inv_addItem hI1 h2
    obtain ⟨ps2, l12, j2, l22, hps2, hsplit2, hsize2, htbl2, hpre2, hbr2⟩ :=
      addItem_true_spec h2
    have hmem1 : ∀ x : Key × Val, some x ∈ t1.table → x = ((0, ha), some 1) := by
      intro x hx
      rw [htbl1,
        show (mk' 13).table = List.replicate 13 (none : Slot) from rfl] at hx
      rcases List.mem_or_eq_of_mem_set hx with hrep | hEq
      · exact absurd (List.eq_of_mem_replicate hrep) (by simp)
      · rw [Option.some.injEq] at hEq
        exact hEq
    have hcnt2 : t2.count = 2 := by
      rcases hbr2 with ⟨_, hc⟩ | ⟨⟨v0, hocc⟩, _⟩
      · rw [hc, hcnt1]
        decide
      · exfalso
        have hx := hmem1 _ (mem_of_getD_some hocc)
        rw [Prod.mk.injEq] at hx
        exact hab hx.1.symm
    have hsz2 : t2.size = 13 := by rw [hsize2, hsz1]
    have hj2j1 : j2 ≠ j1 := by
      intro hEq
      rcases hbr2 with ⟨hemp, _⟩ | ⟨⟨v0, hocc⟩, _⟩
      · rw [hEq, hj1slot] at hemp
        cases hemp
      · rw [hEq, hj1slot] at hocc
        rw [Option.some.injEq, Prod.mk.injEq] at hocc
        exact hab hocc.1
    have hj1slot2 : t2.table.getD j1 none = some ((0, ha), some 1) := by
      rw [htbl2, getD_set_ne _ hj2j1]
      exact hj1slot
    have hps1t2 : probeSequence t2.size (0, ha) = .ok ps1 := by
      rw [hsz2]
      exact hps1
    have hal3 : addLoop t2.table ps1 (0, ha) (some 3)
        = some (t2.table.set j1 (some ((0, ha), some 3)), false) := by
      rw [hps1e]
      simp only [addLoop_cons, hj1slot2]
      simp
    have h3 : addItem t2 (0, ha) (some 3)
        = .ok ({ t2 with
                   table := t2.table.set j1 (some ((0, ha), some 3))
                   count := t2.count + if false then 1 else 0 }, true) := by
      rw [addItem_def hps1t2, hal3]
    have hno3 : ¬ 4 * t2.count ≥ 3 * (t2.size : Int) := by
      rw [hcnt2, hsz2]
      decide
    have hset3 : setitem t2 (0, ha) (some 3)
        = .ok { t2 with
                  table := t2.table.set j1 (some ((0, ha), some 3))
                  count := t2.count + if false then 1 else 0 } := by
      rw [setitem_no_trigger hno3, setitemRest_add_ok h3]
    refine ⟨{ t2 with
                table := t2.table.set j1 (some ((0, ha), some 3))
                count := t2.count + if false then 1 else 0 },
      ?_, ?_, ?_, ?_⟩
    · rw [runOps_cons_ok
          (show runOp (mk' 13) (.set (0, ha) (some 1)) = .ok t1 from hset1),
        runOps_cons_ok
          (show runOp t1 (.set (1, hb) (some 2)) = .ok t2 from hset2),
        runOps_cons_ok
          (show runOp t2 (.set (0, ha) (some 3)) = .ok _ from hset3)]
      rfl
    · show _ + _ = (2 : Int)
      rw [hcnt2]
      decide
    · exact getitem_some (addItem_true_search hI2.1 h3)
    · have hsb2 := addItem_true_search hI1.1 h2
      have hpres := addItem_search_other hI2.1 hab h3
      exact getitem_some (by rw [hpres]; exact hsb2)
  · intro t t1 k v hlen hset hno
    obtain ⟨u, hu, hcase⟩ := setitem_ok_exists_add hset
    have hulen : u.table.length = u.size := by
      rcases hcase with rfl | ⟨w, hw⟩
      · exact hlen
      · exact (rehash_ok_inv hw).1
    obtain ⟨t2, hadd2, hcnt, _, _⟩ := addItem_again hulen hu
    refine ⟨t2, ?_, ?_, ?_⟩
    · rw [setitem_no_trigger hno, setitemRest_add_ok hadd2]
    · rw [len, len, hcnt]
    · exact addItem_true_search (setitem_ok_search hlen hset).2 hadd2

/-- C8, witness: both parts of the amended theorem at concrete
inputs — the scenario with hashes 0 and 0, and a repeated
`set((4,4), 9)` on a fresh default table. -/
theorem c8_witness :
    (∃ t, runOps (mk' 13) [.set (0, 0) (some 1), .set (1, 0) (some 2),
        .set (0, 0) (some 3)] = .ok t ∧
      len t = 2 ∧ getitem t (0, 0) = .ok 3 ∧ getitem t (1, 0) = .ok 2) ∧
    (∃ t2, setitem { size := 13
                     table := (List.replicate 13 (none : Slot)).set 4
                       (some (intKey 4, some 9))
                     count := 1 } (intKey 4) (some 9) = .ok t2 ∧
      len t2 = len { size := 13
                     table := (List.replicate 13 (none : Slot)).set 4
                       (some (intKey 4, some 9))
                     count := 1 } ∧
      find t2 (intKey 4) = .ok (some 9)) :=
  ⟨c8_overwrite_spec.1 0 0,
    c8_overwrite_spec.2 (mk' 13) _ (intKey 4) (some 9) (by decide)
      (by rfl) (by decide)⟩

end HashTable

end HashTablePy
